import Mathlib

/-!
Verification of the local documentation server (`server.py`): request
routing (`do_GET` / `do_POST`), the upstream proxy (`_proxy`), and the
filesystem path translator (`translate_path`).

Python strings are modelled as `List Char` (`Str`) where character-level
reasoning is needed (routing predicates, path translation), and as Lean
`String` for the proxy component.  Python dicts keyed by strings are
modelled as association lists with insert-or-replace update, preserving
dict lookup semantics.
-/

namespace Server

abbrev Str := List Char

/-- Python `s.startswith(pre)` on character lists. -/
def startswith (s pre : Str) : Bool :=
  match s, pre with
  | _, [] => true
  | [], _ :: _ => false
  | c :: cs, p :: ps => c == p && startswith cs ps

/-- Python `s.startswith(tuple_of_prefixes)`: true if any element matches. -/
def startswithAny (s : Str) (pres : List Str) : Bool :=
  pres.any (fun p => startswith s p)

/-! ## GET routing (`RequestHandler.do_GET`, `server.py` lines 184-202) -/

/-- `PORTAL_PATH_PREFIXES = ('/_portal', '/_api') + ('/_publication', '/_date', '/_compare')`
(`server.py` lines 76-77). -/
def PORTAL_PATH_PREFIXES : List Str :=
  ["/_portal".data, "/_api".data, "/_publication".data, "/_date".data, "/_compare".data]

/-- The `filetypes` set of recognized extensions (`server.py` lines 56-73). -/
def filetypes : List Str :=
  ["html".data, "pdf".data, "jpg".data, "svg".data, "png".data, "gif".data,
   "css".data, "js".data, "mustache".data, "json".data, "bulk".data, "map".data,
   "ttf".data, "eot".data, "woff".data, "woff2".data]

/-- Python `s.endswith('/')`. -/
def endsWithSlash (s : Str) : Bool :=
  match s.getLast? with
  | some c => c == '/'
  | none => false

/-- Python `'.' in s`. -/
def hasDot (s : Str) : Bool := s.contains '.'

/-- Python `s.rsplit('.', 1)[1]`: the suffix after the last `'.'`
(meaningful only when a dot is present, as in the guarded source). -/
def extAfterLastDot (s : Str) : Str :=
  (s.reverse.takeWhile (fun c => c != '.')).reverse

/-- The extension-defaulting test of `do_GET` (`server.py` line 200):
`not path.endswith('/') and ('.' not in path or path.rsplit('.',1)[1] not in filetypes)`. -/
def needsHtml (p : Str) : Bool :=
  !endsWithSlash p && (!hasDot p || !(filetypes.contains (extAfterLastDot p)))

/-- Python dict built from the raw redirect pair list
(`redirects = dict-comprehension over raw_redirects`, later entries overwrite
earlier ones), then `dict.get(path)`. -/
def dictGet (tbl : List (Str × Str)) (k : Str) : Option Str :=
  (tbl.reverse.find? (fun r => r.1 == k)).map (fun r => r.2)

/-- Python truthiness of `redirect` at `if redirect:` — `None` and the empty
string are falsy. -/
def truthy : Option Str → Bool
  | none => false
  | some s => !(s == [])

/-- The action `do_GET` takes for a request path. -/
inductive GetAction where
  | proxyPortal : GetAction
  | proxySearch : GetAction
  | redirect (location : Str) : GetAction
  | serveFile (effectivePath : Str) : GetAction
deriving DecidableEq, Repr

/-- The static-serving branch of `do_GET` (lines 198-202): append `.html`
when the extension-defaulting test fires, then delegate to the superclass. -/
def serveBranch (p : Str) : GetAction :=
  .serveFile (if needsHtml p then p ++ ".html".data else p)

/-- `RequestHandler.do_GET` (`server.py` lines 184-202), modelled on the
request path with the server's bound address `(addr, port)` and the
redirect-pair list. -/
def doGET (addr : Str) (port : Nat) (redirects : List (Str × Str)) (path : Str) :
    GetAction :=
  if startswithAny path PORTAL_PATH_PREFIXES then .proxyPortal
  else if startswith path "/_search".data then .proxySearch
  else
    let r := dictGet redirects path
    if truthy r then
      .redirect ("http://".data ++ addr ++ ":".data ++ (toString port).data ++ r.getD [])
    else serveBranch path

/-- `AUTH_PATH_PREFIX = '/_api/authenticate'` (`server.py` line 75). -/
def AUTH_PATH_PREFIX : Str := "/_api/authenticate".data

/-- The action `do_POST` takes. -/
inductive PostAction where
  /-- `_proxy(PORTAL_CLIENT_CLASS, PORTAL_HOST, 'portal', method='POST', body=body)`
  with `body = rfile.read(int(headers.get('Content-Length')))`. -/
  | proxyPortalPost (body : Str) : PostAction
  /-- Fall off the end of `do_POST`: nothing is written to the client. -/
  | noResponse : PostAction
deriving DecidableEq, Repr

/-- `RequestHandler.do_POST` (`server.py` lines 204-208): only the exact
authentication path is serviced; the body is the first `Content-Length`
bytes of the request stream. -/
def doPOST (path : Str) (contentLength : Nat) (rfileData : Str) : PostAction :=
  if path == AUTH_PATH_PREFIX then
    .proxyPortalPost (rfileData.take contentLength)
  else .noResponse

/-! ## Python dict on string keys (association list, insert-or-replace) -/

/-- `k in d` for a Python dict modelled as an association list. -/
def containsKey {α : Type} (d : List (String × α)) (k : String) : Bool :=
  d.any (fun kv => kv.1 == k)

/-- `d[k] = v`: replace in place if the key exists (dicts keep insertion
order and update values in place), otherwise append. -/
def dset {α : Type} (d : List (String × α)) (k : String) (v : α) :
    List (String × α) :=
  if containsKey d k then d.map (fun kv => if kv.1 == k then (k, v) else kv)
  else d ++ [(k, v)]

/-- `d.get(k)` on a dict with unique keys. -/
def dget {α : Type} (d : List (String × α)) (k : String) : Option α :=
  (d.find? (fun kv => kv.1 == k)).map (fun kv => kv.2)

/-- `d.pop(k, None)`'s effect on the mapping. -/
def dpop {α : Type} (d : List (String × α)) (k : String) : List (String × α) :=
  d.filter (fun kv => kv.1 != k)

/-- `d.update(items)`: insert each pair in order. -/
def dupdate {α : Type} (d : List (String × α)) (items : List (String × α)) :
    List (String × α) :=
  items.foldl (fun a kv => dset a kv.1 kv.2) d

/-! ## Upstream proxy (`RequestHandler._proxy`, `server.py` lines 140-182) -/

/-- `email.message.Message.__getitem__`: case-insensitive lookup of the
first matching header, `None` when absent (used for `self.headers['Host']`). -/
def msgGet (h : List (String × String)) (k : String) : Option String :=
  (h.find? (fun kv => kv.1.toLower == k.toLower)).map (fun kv => kv.2)

/-- The inbound header `Message` converted to a dict:
`req_headers = empty dict; req_headers.update(self.headers)`.  `dict.update`
on a mapping iterates `self.headers.keys()` (every header name, duplicates
and case preserved, in arrival order) and assigns `req_headers[k] =
self.headers[k]` — and `Message.__getitem__` is the case-insensitive
*first* match, so each key is paired with `msgGet h k`, not with that
occurrence's own value. -/
def dictOfMsg (h : List (String × String)) : List (String × Option String) :=
  dupdate [] (h.map (fun kv => (kv.1, msgGet h kv.1)))

/-- Outbound request headers built by `_proxy` (`server.py` lines 154-161):
copy the inbound headers, `pop('Host', None)`, then update with
`X-Forwarded-For` (the source quotes the call, so the value is the literal
text `self.address_string()`), `X-Forwarded-Host` (the inbound `Host`
value) and `X-Forwarded-Proto: http`. -/
def reqHeaders (h : List (String × String)) : List (String × Option String) :=
  dupdate (dpop (dictOfMsg h) "Host")
    [("X-Forwarded-For", some "self.address_string()"),
     ("X-Forwarded-Host", msgGet h "Host"),
     ("X-Forwarded-Proto", some "http")]

/-- `http.client._METHODS_EXPECTING_BODY`. -/
def METHODS_EXPECTING_BODY : List String := ["PATCH", "POST", "PUT"]

/-- `urllib.parse.uses_netloc` (CPython 3.11). -/
def uses_netloc : List String :=
  ["", "ftp", "http", "gopher", "nntp", "telnet", "imap", "wais", "file",
   "mms", "https", "shttp", "snews", "prospero", "rtsp", "rtsps", "rtspu",
   "rsync", "svn", "svn+ssh", "sftp", "nfs", "git", "git+ssh", "ws", "wss"]

/-- `urllib.parse.urlunsplit(components)` (CPython 3.11): `_coerce_args`
turns the `n` components into `n + 1` values, which are unpacked into six
names `(scheme, netloc, url, query, fragment, _coerce_result)`; any arity
other than five raises `ValueError` at the unpacking, modelled as
`Except.error`. -/
def urlunsplit (components : List String) : Except String String :=
  match components with
  | [scheme, netloc, url0, query, fragment] =>
    let url1 :=
      if netloc ≠ "" ∨
          (scheme ≠ "" ∧ uses_netloc.contains scheme ∧ url0.take 2 ≠ "//") then
        "//" ++ netloc ++ (if url0 ≠ "" ∧ url0.take 1 ≠ "/" then "/" ++ url0 else url0)
      else url0
    let url2 := if scheme ≠ "" then scheme ++ ":" ++ url1 else url1
    let url3 := if query ≠ "" then url2 ++ "?" ++ query else url2
    .ok (if fragment ≠ "" then url3 ++ "#" ++ fragment else url3)
  | l =>
    if l.length + 1 < 6 then
      .error ("ValueError: not enough values to unpack (expected 6, got "
        ++ toString (l.length + 1) ++ ")")
    else .error "ValueError: too many values to unpack (expected 6)"

/-- An `http.client` connection class and host, as produced by
`get_http_client_info` (e.g. `className = "HTTPConnection"`). -/
structure Upstream where
  className : String
  host : String
deriving DecidableEq, Repr

/-- What `client.getresponse()` yields: an exception, or a response with
status code, headers (as listed by `resp.headers.items()`) and body. -/
inductive UpstreamResult where
  | failure : UpstreamResult
  | success (code : Nat) (headers : List (String × String)) (body : String) :
      UpstreamResult
deriving DecidableEq, Repr

/-- One event written on the client connection. -/
inductive Event where
  | sendStatus (code : Nat) : Event
  | sendHeader (k v : String) : Event
  | endHeaders : Event
  | writeBody (s : String) : Event
deriving DecidableEq, Repr

/-- One outbound request issued via `client.request(...)`. -/
structure OutboundReq where
  method : String
  path : String
  headers : List (String × Option String)
  body : Option String
deriving DecidableEq, Repr

/-- The observable outcome of one `_proxy` call: the events written to the
client, the outbound network requests issued, and an uncaught Python
exception if one escapes the handler. -/
structure ProxyOutcome where
  events : List Event
  outbound : List OutboundReq
  exc : Option String
deriving DecidableEq, Repr

/-- The misconfiguration message (`server.py` lines 149-150):
`'Local server not configured to proxy NAME. Please run with the "--NAME-proxy-url" flag '`
with `NAME` the upstream name substituted twice. -/
def configMsg (upstreamName : String) : String :=
  "Local server not configured to proxy " ++ upstreamName ++
    ". Please run with the \"--" ++ upstreamName ++ "-proxy-url\" flag "

/-- `RequestHandler._proxy` (`server.py` lines 140-182).

* `Client is None` → 400, the configuration message, no network call.
* Otherwise one `client.request(...)` is issued (body only for methods in
  `_METHODS_EXPECTING_BODY`), then `client.getresponse()`:
  * on exception → `send_response(500)`, `end_headers()`, then the body is
    formatted from `urlunsplit((host, scheme, '', ''))` where
    `scheme = type(client).__name__[:-10].lower()`; `urlunsplit` with a
    4-tuple raises `ValueError`, which escapes (`exc`), leaving the body
    unwritten;
  * on success → relay the status code, every header whose name is not
    (case-sensitively) `Transfer-Encoding` or `Connection`, and the body. -/
def proxy (cfg : Option Upstream) (upstreamName : String)
    (inHeaders : List (String × String)) (path : String) (method : String)
    (body : Option String) (up : UpstreamResult) : ProxyOutcome :=
  match cfg with
  | none =>
    { events := [.sendStatus 400, .endHeaders, .writeBody (configMsg upstreamName)],
      outbound := [], exc := none }
  | some c =>
    let req : OutboundReq :=
      { method := method, path := path, headers := reqHeaders inHeaders,
        body := if METHODS_EXPECTING_BODY.contains method then body else none }
    match up with
    | .failure =>
      let scheme := (c.className.dropRight 10).toLower
      match urlunsplit [c.host, scheme, "", ""] with
      | .ok url =>
        { events := [.sendStatus 500, .endHeaders,
            .writeBody ("Something went wrong proxying to " ++ url)],
          outbound := [req], exc := none }
      | .error e =>
        { events := [.sendStatus 500, .endHeaders], outbound := [req],
          exc := some e }
    | .success code respHeaders respBody =>
      { events := [.sendStatus code] ++
          (respHeaders.filter
              (fun kv => !(kv.1 == "Transfer-Encoding" || kv.1 == "Connection"))).map
            (fun kv => .sendHeader kv.1 kv.2) ++
          [.endHeaders, .writeBody respBody],
        outbound := [req], exc := none }

/-! ## Path translation (`RequestHandler.translate_path`, lines 210-244)

The helpers below model the Python/posix standard-library functions used
by `translate_path`, at the character level (`errors='surrogatepass'`
byte decoding is modelled codepoint-wise: each `%XX` escape yields the
character with code `XX`, exact for the ASCII range that matters here). -/

/-- `path.replace(':', '~')` (`server.py` line 219). -/
def replaceColon (p : Str) : Str :=
  p.map (fun c => if c == ':' then '~' else c)

/-- `path.split(sep, 1)[0]`: everything before the first occurrence. -/
def splitHead (sep : Char) (p : Str) : Str :=
  p.takeWhile (fun c => c != sep)

/-- Python whitespace stripped by `str.rstrip()` (ASCII range). -/
def pySpace (c : Char) : Bool :=
  c == ' ' || c == '\t' || c == '\n' || c == '\r' ||
    c == Char.ofNat 11 || c == Char.ofNat 12

/-- `path.rstrip()`. -/
def rstrip (p : Str) : Str :=
  (p.reverse.dropWhile pySpace).reverse

/-- Hex digit value, as accepted by `urllib.parse.unquote`. -/
def hexVal (c : Char) : Option Nat :=
  if '0' ≤ c ∧ c ≤ '9' then some (c.toNat - '0'.toNat)
  else if 'a' ≤ c ∧ c ≤ 'f' then some (c.toNat - 'a'.toNat + 10)
  else if 'A' ≤ c ∧ c ≤ 'F' then some (c.toNat - 'A'.toNat + 10)
  else none

/-- `urllib.parse.unquote(path, errors='surrogatepass')`: decode each valid
`%XX` escape; an invalid escape keeps the literal `%`. -/
def unquote : Str → Str
  | '%' :: a :: b :: rest =>
    match hexVal a, hexVal b with
    | some x, some y => Char.ofNat (16 * x + y) :: unquote rest
    | _, _ => '%' :: unquote (a :: b :: rest)
  | c :: rest => c :: unquote rest
  | [] => []

/-- `path.split('/')` (splits at every separator, keeping empty pieces). -/
def splitOnSlash : Str → List Str
  | [] => [[]]
  | c :: rest =>
    if c == '/' then [] :: splitOnSlash rest
    else
      match splitOnSlash rest with
      | w :: ws => (c :: w) :: ws
      | [] => [[c]]

/-- `'/'.join(comps)`. -/
def joinSlash : List Str → Str
  | [] => []
  | [w] => w
  | w :: ws => w ++ '/' :: joinSlash ws

/-- One step of `posixpath.normpath`'s component loop: skip `''` and `'.'`,
append a kept component, and let `..` pop the last kept component unless
it must be preserved (relative path with nothing to pop, or following a
kept `..`). -/
def normAddComp (initSlashes : Nat) (acc : List Str) (comp : Str) : List Str :=
  if comp = [] ∨ comp = ['.'] then acc
  else if comp ≠ ['.', '.'] ∨ (initSlashes = 0 ∧ acc = []) ∨
      (acc ≠ [] ∧ acc.getLast? = some ['.', '.']) then
    acc ++ [comp]
  else if acc ≠ [] then acc.dropLast
  else acc

/-- `posixpath.normpath` (lexical normalization, CPython algorithm). -/
def normpath (p : Str) : Str :=
  if p = [] then ['.']
  else
    let initSlashes : Nat :=
      if startswith p ['/'] then
        if startswith p ['/', '/'] ∧ ¬ startswith p ['/', '/', '/'] then 2
        else 1
      else 0
    let newComps := (splitOnSlash p).foldl (normAddComp initSlashes) []
    let res := List.replicate initSlashes '/' ++ joinSlash newComps
    if res = [] then ['.'] else res

/-- `posixpath.join(a, b)` (binary form). -/
def pjoin (a b : Str) : Str :=
  if startswith b ['/'] then b
  else if a = [] ∨ endsWithSlash a then a ++ b
  else a ++ '/' :: b

/-- Index of the first `'/'`, if any. -/
def idxOfSlash : Str → Option Nat
  | [] => none
  | c :: rest =>
    if c == '/' then some 0 else (idxOfSlash rest).map (fun i => i + 1)

/-- Index of the last `'/'` in `p`, if any (`p.rfind('/')`). -/
def rfindSlash (p : Str) : Option Nat :=
  match idxOfSlash p.reverse with
  | some j => some (p.length - 1 - j)
  | none => none

/-- `posixpath.dirname`: the part before the last `'/'`, with trailing
slashes stripped unless the head is all slashes; `''` when no slash. -/
def dirname (p : Str) : Str :=
  match rfindSlash p with
  | none => []
  | some i =>
    let head := p.take (i + 1)
    if head ≠ [] ∧ ¬ head.all (fun c => c == '/') then
      (head.reverse.dropWhile (fun c => c == '/')).reverse
    else head

/-- The component loop of `translate_path` (lines 232-237): starting from
the document root, skip any word with a nonempty `dirname` or equal to
`os.curdir` / `os.pardir`, and join the rest in order. -/
def buildPath (root : Str) (words : List Str) : Str :=
  words.foldl
    (fun path word =>
      if dirname word ≠ [] ∨ word = ['.'] ∨ word = ['.', '.'] then path
      else pjoin path word)
    root

/-- `posixpath.abspath` relative to the working directory `cwd` (the
server does `os.chdir(DIR)` at startup, so `cwd = DIR`). -/
def abspath (cwd p : Str) : Str :=
  if startswith p ['/'] then normpath p else normpath (pjoin cwd p)

/-- The length of the common leading run of two component lists (the
`zip`/`break` loop inside `posixpath.relpath`). -/
def commonLen : List Str → List Str → Nat
  | a :: as, b :: bs => if a = b then commonLen as bs + 1 else 0
  | _, _ => 0

/-- `posixpath.relpath(p, start)` (for the nonempty paths used here):
split the absolute forms into nonempty components, drop the common lead,
prepend one `..` per remaining `start` component, and rejoin. -/
def relpath (cwd p start : Str) : Str :=
  let startList := (splitOnSlash (abspath cwd start)).filter (fun w => w ≠ [])
  let pathList := (splitOnSlash (abspath cwd p)).filter (fun w => w ≠ [])
  let i := commonLen startList pathList
  let relList := List.replicate (startList.length - i) ['.', '.'] ++ pathList.drop i
  if relList = [] then ['.'] else relList.foldl pjoin []

/-- Python `s.endswith(suffix)`. -/
def endswith (s suf : Str) : Bool :=
  startswith s.reverse suf.reverse

/-- `'static-assets'`: `STATIC_ASSETS_DIR = os.path.join(DIR, 'static-assets')`
(`server.py` line 46). -/
def STATIC_ASSETS_SEG : Str := "static-assets".data

/-- `RequestHandler.translate_path` (`server.py` lines 210-244), with the
document root `DIR` and the filesystem's `os.path.isdir` / `os.path.exists`
answers passed as oracles. -/
def translate_path (isdir pexists : Str → Bool) (DIR : Str) (p0 : Str) : Str :=
  let p1 := replaceColon p0
  let p2 := splitHead '?' p1
  let p3 := splitHead '#' p2
  let trailing := endsWithSlash (rstrip p3)
  let p4 := unquote p3
  let p5 := normpath p4
  let words := (splitOnSlash p5).filter (fun w => w ≠ [])
  let base := buildPath DIR words
  let path := if trailing then base ++ ['/'] else base
  if isdir path || endswith path ".html".data || pexists path then path
  else pjoin (pjoin DIR STATIC_ASSETS_SEG) (relpath DIR path DIR)

/-- A path segment that cannot move the joined path above its root:
nonempty, not `..`, and free of separators (`.` is allowed — it stays in
place). -/
def safeSeg (w : Str) : Prop :=
  w ≠ [] ∧ w ≠ ['.', '.'] ∧ '/' ∉ w

/-- A fully plain segment: additionally not `.`. -/
def plainSeg (w : Str) : Prop :=
  w ≠ [] ∧ w ≠ ['.'] ∧ w ≠ ['.', '.'] ∧ '/' ∉ w

/-- Join segments under a root with single separators. -/
def joinSegs (root : Str) (ws : List Str) : Str :=
  ws.foldl (fun a w => a ++ '/' :: w) root

/-- `q` lies at or below `root`: it is `root` extended by safe segments,
possibly with one trailing separator. -/
def withinRoot (root q : Str) : Prop :=
  ∃ ws, (∀ w ∈ ws, safeSeg w) ∧
    (q = joinSegs root ws ∨ q = joinSegs root ws ++ ['/'])

/-! ## General lemmas -/

/-- `startswith` holds for a literal prepended string. -/
theorem startswith_append (pre s : Str) : startswith (pre ++ s) pre = true := by
  induction pre with
  | nil => cases s <;> rfl
  | cons c cs ih => simp [startswith, ih]

/-- `startswith s pre` exactly when `s` literally extends `pre`. -/
theorem startswith_iff_exists (s pre : Str) :
    startswith s pre = true ↔ ∃ t, s = pre ++ t := by
  constructor
  · intro h
    induction pre generalizing s with
    | nil => exact ⟨s, rfl⟩
    | cons p ps ih =>
      cases s with
      | nil => simp [startswith] at h
      | cons c cs =>
        simp only [startswith, Bool.and_eq_true, beq_iff_eq] at h
        obtain ⟨t, ht⟩ := ih cs h.2
        exact ⟨t, by simp [h.1, ht]⟩
  · rintro ⟨t, rfl⟩
    exact startswith_append pre t

/-- No portal prefix matches a path that begins with `/_search`. -/
theorem portal_not_match_search (t : Str) :
    startswithAny ("/_search".data ++ t) PORTAL_PATH_PREFIXES = false := by
  simp [startswithAny, PORTAL_PATH_PREFIXES, startswith]

/-! ## C3: default `.html` extension -/

/-- C3: for a GET path that matches no proxy prefix and no redirect entry,
does not end in `/`, and has no recognized extension, the effective path
served is exactly the request path with `.html` appended. -/
theorem c3_default_html_extension (addr : Str) (port : Nat)
    (tbl : List (Str × Str)) (p : Str)
    (hpre : startswithAny p PORTAL_PATH_PREFIXES = false)
    (hsearch : startswith p "/_search".data = false)
    (hred : dictGet tbl p = none)
    (hslash : endsWithSlash p = false)
    (hext : hasDot p = false ∨ filetypes.contains (extAfterLastDot p) = false) :
    doGET addr port tbl p = .serveFile (p ++ ".html".data) := by
  have hneed : needsHtml p = true := by
    cases hext with
    | inl hd => simp [needsHtml, hslash, hd]
    | inr he =>
      simp [needsHtml, hslash, he]
      exact Or.inr (by simpa using he)
  simp [doGET, hpre, hsearch, hred, truthy, serveBranch, hneed]

/-- Witness for C3 at the concrete path `/about` with an empty table. -/
theorem c3_witness :
    doGET "127.0.0.1".data 8000 [] "/about".data =
      GetAction.serveFile "/about.html".data := by
  have h := c3_default_html_extension "127.0.0.1".data 8000 [] "/about".data
    (by decide) (by decide) (by decide) (by decide) (Or.inl (by decide))
  simpa using h

/-! ## C6: redirect lookup -/

/-- C6 counterexample: with the table entry `("/foo", "")` the lookup does
match the raw path `/foo` (returning the empty target), yet no 302 is
issued — `if redirect:` treats the empty-string target as falsy and the
request falls through to static serving of `/foo.html`. -/
theorem c6_counterexample :
    dictGet [("/foo".data, [])] "/foo".data = some [] ∧
    doGET "127.0.0.1".data 8000 [("/foo".data, [])] "/foo".data =
      GetAction.serveFile "/foo.html".data := by
  constructor
  · rfl
  · decide

/-- C6 (amended): redirect lookup is exact string match on the raw request
path; for a table entry `(S, T)` with nonempty target `T`, a GET whose
path equals `S` and matches no proxy prefix receives a 302 whose location
is `http://` + bound address + `:` + port + `T`, and no other path matches
that entry. -/
theorem c6_redirect_exact (addr : Str) (port : Nat) (tbl : List (Str × Str))
    (s t : Str)
    (hpre : startswithAny s PORTAL_PATH_PREFIXES = false)
    (hsearch : startswith s "/_search".data = false)
    (hget : dictGet tbl s = some t) (ht : t ≠ []) :
    doGET addr port tbl s =
      .redirect ("http://".data ++ addr ++ ":".data ++ (toString port).data ++ t) ∧
    ∀ p : Str, p ≠ s → dictGet [(s, t)] p = none := by
  constructor
  · simp [doGET, hpre, hsearch, hget, truthy, ht]
  · intro p hp
    have hb : (s == p) = false := beq_eq_false_iff_ne.mpr (fun h => hp h.symm)
    simp [dictGet, List.find?, hb]

/-- Witness for C6 at the table `("/foo", "/bar")`, path `/foo`, and the
non-matching path `/foo/`. -/
theorem c6_witness :
    doGET "127.0.0.1".data 8000 [("/foo".data, "/bar".data)] "/foo".data =
      GetAction.redirect "http://127.0.0.1:8000/bar".data ∧
    dictGet [("/foo".data, "/bar".data)] "/foo/".data = none := by
  have h := c6_redirect_exact "127.0.0.1".data 8000
    [("/foo".data, "/bar".data)] "/foo".data "/bar".data
    (by decide) (by decide) (by decide) (by decide)
  exact ⟨h.1.trans (by decide), h.2 "/foo/".data (by decide)⟩

/-! ## C8: mutually exclusive proxy role selection -/

/-- C8: role selection is prefix-based and mutually exclusive: a path
beginning with `/_search` always routes to the search upstream (never the
portal one), and a path beginning with `/_portal` always routes to the
portal upstream (never the search one). -/
theorem c8_role_exclusive (addr : Str) (port : Nat) (tbl : List (Str × Str))
    (p : Str) :
    (startswith p "/_search".data = true → doGET addr port tbl p = .proxySearch) ∧
    (startswith p "/_portal".data = true → doGET addr port tbl p = .proxyPortal) := by
  constructor
  · intro h
    obtain ⟨t, rfl⟩ := (startswith_iff_exists _ _).mp h
    have h1 : startswithAny ("/_search".data ++ t) PORTAL_PATH_PREFIXES = false :=
      portal_not_match_search t
    have h2 : startswith ("/_search".data ++ t) "/_search".data = true :=
      startswith_append _ _
    simp only [doGET, h1, h2]
    simp
  · intro h
    obtain ⟨t, rfl⟩ := (startswith_iff_exists _ _).mp h
    have h1 : startswithAny ("/_portal".data ++ t) PORTAL_PATH_PREFIXES = true := by
      have h2 := startswith_append "/_portal".data t
      simp [startswithAny, PORTAL_PATH_PREFIXES]
      exact Or.inl h2
    simp only [doGET, h1]
    simp

/-- Witness for C8 at `/_search/x` and `/_portal/x`. -/
theorem c8_witness :
    doGET "127.0.0.1".data 8000 [] "/_search/x".data = GetAction.proxySearch ∧
    doGET "127.0.0.1".data 8000 [] "/_portal/x".data = GetAction.proxyPortal := by
  exact ⟨(c8_role_exclusive "127.0.0.1".data 8000 [] "/_search/x".data).1 (by decide),
         (c8_role_exclusive "127.0.0.1".data 8000 [] "/_portal/x".data).2 (by decide)⟩

/-! ## C9: POST handling -/

/-- C9: only the exact path `/_api/authenticate` is serviced by `do_POST`
(reading `Content-Length` bytes of the body and proxying them to the
portal upstream as a POST); every other POST produces no response. -/
theorem c9_post_auth_only (p : Str) (n : Nat) (s : Str) :
    (p ≠ AUTH_PATH_PREFIX → doPOST p n s = .noResponse) ∧
    doPOST AUTH_PATH_PREFIX n s = .proxyPortalPost (s.take n) := by
  constructor
  · intro hp
    simp [doPOST, hp]
  · simp [doPOST]

/-- Witness for C9 at the foreign path `/other` and the auth path. -/
theorem c9_witness :
    doPOST "/other".data 3 "abcdef".data = PostAction.noResponse ∧
    doPOST AUTH_PATH_PREFIX 3 "abcdef".data =
      PostAction.proxyPortalPost ("abcdef".data.take 3) :=
  ⟨(c9_post_auth_only "/other".data 3 "abcdef".data).1 (by decide),
   (c9_post_auth_only AUTH_PATH_PREFIX 3 "abcdef".data).2⟩

/-! ## C1: transport failure handling -/

/-- C1 (code bug, evaluated at a failing input): with the portal upstream
configured as a plain-HTTP connection to `portal.example.com`, a
transport failure at `getresponse()` leaves the client with a 500 status
and headers but no body at all — the body formatting calls
`urlunsplit((host, scheme, '', ''))` with four components where five are
required, so a `ValueError` escapes before `wfile.write` — and exactly
one outbound request was attempted (no retry). -/
theorem c1_transport_failure_body_never_written :
    (proxy (some ⟨"HTTPConnection", "portal.example.com"⟩) "portal"
        [("Host", "localhost:8000")] "/_portal/x" "GET" none .failure).events =
      [.sendStatus 500, .endHeaders] ∧
    (proxy (some ⟨"HTTPConnection", "portal.example.com"⟩) "portal"
        [("Host", "localhost:8000")] "/_portal/x" "GET" none .failure).outbound.length = 1 ∧
    (proxy (some ⟨"HTTPConnection", "portal.example.com"⟩) "portal"
        [("Host", "localhost:8000")] "/_portal/x" "GET" none .failure).exc =
      some "ValueError: not enough values to unpack (expected 6, got 5)" :=
  ⟨rfl, rfl, rfl⟩

/-! ## C2: relay of upstream response headers -/

/-- C2 counterexample: the upstream sends `transfer-encoding` in lowercase
and the relay forwards it to the client — the exclusion of
`Transfer-Encoding` / `Connection` is a case-sensitive comparison, so the
claim "never relayed regardless of letter case" is false. -/
theorem c2_counterexample :
    (proxy (some ⟨"HTTPConnection", "h"⟩) "search" [] "/x" "GET" none
        (.success 200 [("transfer-encoding", "chunked")] "B")).events =
      [.sendStatus 200, .sendHeader "transfer-encoding" "chunked",
       .endHeaders, .writeBody "B"] :=
  rfl

/-- C2 (amended): on success the relay copies the upstream status code and
every upstream header except those whose name is exactly
`Transfer-Encoding` or `Connection` (case-sensitive match); those two
exact names are never relayed. -/
theorem c2_case_sensitive_header_filter (c : Upstream) (name : String)
    (h : List (String × String)) (path : String) (code : Nat)
    (rh : List (String × String)) (b : String) :
    Event.sendStatus code ∈
      (proxy (some c) name h path "GET" none (.success code rh b)).events ∧
    (∀ v, Event.sendHeader "Transfer-Encoding" v ∉
        (proxy (some c) name h path "GET" none (.success code rh b)).events ∧
      Event.sendHeader "Connection" v ∉
        (proxy (some c) name h path "GET" none (.success code rh b)).events) ∧
    (∀ kv ∈ rh, kv.1 ≠ "Transfer-Encoding" → kv.1 ≠ "Connection" →
      Event.sendHeader kv.1 kv.2 ∈
        (proxy (some c) name h path "GET" none (.success code rh b)).events) := by
  refine ⟨by simp [proxy], ?_, ?_⟩
  · intro v
    constructor
    · intro hmem
      simp only [proxy, List.mem_append, List.mem_cons, List.mem_singleton,
        List.mem_map, List.mem_filter] at hmem
      rcases hmem with (hmem | hmem) | hmem
      · simp at hmem
      · obtain ⟨kv, ⟨_, hf⟩, he⟩ := hmem
        have : kv.1 = "Transfer-Encoding" := ((Event.sendHeader.injEq _ _ _ _).mp he.symm).1.symm
        simp [this] at hf
      · simp at hmem
    · intro hmem
      simp only [proxy, List.mem_append, List.mem_cons, List.mem_singleton,
        List.mem_map, List.mem_filter] at hmem
      rcases hmem with (hmem | hmem) | hmem
      · simp at hmem
      · obtain ⟨kv, ⟨_, hf⟩, he⟩ := hmem
        have : kv.1 = "Connection" := ((Event.sendHeader.injEq _ _ _ _).mp he.symm).1.symm
        simp [this] at hf
      · simp at hmem
  · intro kv hkv h1 h2
    simp only [proxy, List.mem_append, List.mem_cons, List.mem_singleton,
      List.mem_map, List.mem_filter]
    exact Or.inl (Or.inr ⟨kv, ⟨hkv, by simp [h1, h2]⟩, rfl⟩)

/-- Witness for C2: the exactly-cased `Connection` header is dropped while
`Content-Type` is relayed, for a concrete upstream response. -/
theorem c2_witness :
    Event.sendStatus 200 ∈
      (proxy (some ⟨"HTTPConnection", "h"⟩) "search" [] "/x" "GET" none
        (.success 200 [("Content-Type", "text/html"), ("Connection", "close")] "B")).events ∧
    Event.sendHeader "Connection" "close" ∉
      (proxy (some ⟨"HTTPConnection", "h"⟩) "search" [] "/x" "GET" none
        (.success 200 [("Content-Type", "text/html"), ("Connection", "close")] "B")).events ∧
    Event.sendHeader "Content-Type" "text/html" ∈
      (proxy (some ⟨"HTTPConnection", "h"⟩) "search" [] "/x" "GET" none
        (.success 200 [("Content-Type", "text/html"), ("Connection", "close")] "B")).events := by
  have h := c2_case_sensitive_header_filter ⟨"HTTPConnection", "h"⟩ "search" [] "/x"
    200 [("Content-Type", "text/html"), ("Connection", "close")] "B"
  exact ⟨h.1, (h.2.1 "close").2,
    h.2.2 ("Content-Type", "text/html") (by simp) (by decide) (by decide)⟩

/-! ## C5: proxy with no configured upstream -/

/-- C5: when no upstream is configured, the client gets a 400 whose
plaintext body is the configuration message — which literally contains the
required flag `--NAME-proxy-url` — and no outbound request is issued. -/
theorem c5_unconfigured_400 (name : String) (h : List (String × String))
    (path method : String) (body : Option String) (up : UpstreamResult) :
    proxy none name h path method body up =
      { events := [.sendStatus 400, .endHeaders, .writeBody (configMsg name)],
        outbound := [], exc := none } ∧
    ∃ a b, configMsg name = a ++ ("--" ++ name ++ "-proxy-url") ++ b := by
  refine ⟨rfl, "Local server not configured to proxy " ++ name ++
    ". Please run with the \"", "\" flag ", ?_⟩
  have h1 : (". Please run with the \"--" : String) =
      ". Please run with the \"" ++ "--" := rfl
  have h2 : ("-proxy-url\" flag " : String) = "-proxy-url" ++ "\" flag " := rfl
  simp only [configMsg, h1, h2, String.append_assoc]

/-! ## Dict lemmas (for C7 / C10) -/

theorem dget_cons_pos {α : Type} (kv : String × α) (d : List (String × α))
    (k : String) (h : (kv.1 == k) = true) : dget (kv :: d) k = some kv.2 := by
  simp [dget, List.find?, h]

theorem dget_cons_neg {α : Type} (kv : String × α) (d : List (String × α))
    (k : String) (h : (kv.1 == k) = false) : dget (kv :: d) k = dget d k := by
  simp [dget, List.find?, h]

theorem dpop_cons_drop {α : Type} (kv : String × α) (d : List (String × α))
    (k : String) (h : (kv.1 == k) = true) : dpop (kv :: d) k = dpop d k := by
  have hb : (kv.1 != k) = false := by simp [bne, h]
  simp [dpop, List.filter, hb]

theorem dpop_cons_keep {α : Type} (kv : String × α) (d : List (String × α))
    (k : String) (h : (kv.1 == k) = false) : dpop (kv :: d) k = kv :: dpop d k := by
  have hb : (kv.1 != k) = true := by simp [bne, h]
  simp [dpop, List.filter, hb]

theorem dget_map_set_self {α : Type} (d : List (String × α)) (k : String) (v : α)
    (hc : containsKey d k = true) :
    dget (d.map (fun kv => if kv.1 == k then (k, v) else kv)) k = some v := by
  induction d with
  | nil => simp [containsKey] at hc
  | cons kv rest ih =>
    rw [List.map_cons]
    by_cases h1 : (kv.1 == k) = true
    · rw [if_pos h1, dget_cons_pos _ _ _ (by simp)]
    · have hr : containsKey rest k = true := by
        simpa [containsKey, h1] using hc
      rw [if_neg h1, dget_cons_neg _ _ _ (by simpa using h1)]
      exact ih hr

theorem dget_map_set_ne {α : Type} (d : List (String × α)) (k k' : String) (v : α)
    (hne : k' ≠ k) :
    dget (d.map (fun kv => if kv.1 == k then (k, v) else kv)) k' = dget d k' := by
  induction d with
  | nil => rfl
  | cons kv rest ih =>
    rw [List.map_cons]
    by_cases h1 : (kv.1 == k) = true
    · have hkeq : kv.1 = k := by simpa using h1
      have hv : ((k, v).1 == k') = false :=
        beq_eq_false_iff_ne.mpr (fun h => hne h.symm)
      have ho : (kv.1 == k') = false :=
        beq_eq_false_iff_ne.mpr (by rw [hkeq]; exact fun h => hne h.symm)
      rw [if_pos h1, dget_cons_neg _ _ _ hv, dget_cons_neg _ _ _ ho]
      exact ih
    · rw [if_neg h1]
      by_cases h2 : (kv.1 == k') = true
      · rw [dget_cons_pos _ _ _ h2, dget_cons_pos _ _ _ h2]
      · rw [dget_cons_neg _ _ _ (by simpa using h2),
          dget_cons_neg _ _ _ (by simpa using h2)]
        exact ih

theorem dget_append_single {α : Type} (d : List (String × α)) (k : String) (v : α)
    (hc : containsKey d k = false) : dget (d ++ [(k, v)]) k = some v := by
  induction d with
  | nil => exact dget_cons_pos _ _ _ (by simp)
  | cons kv rest ih =>
    simp only [containsKey, List.any_cons, Bool.or_eq_false_iff] at hc
    rw [List.cons_append, dget_cons_neg _ _ _ hc.1]
    exact ih (by simp [containsKey, hc.2])

theorem dget_append_single_ne {α : Type} (d : List (String × α)) (k k' : String)
    (v : α) (hne : k' ≠ k) : dget (d ++ [(k, v)]) k' = dget d k' := by
  induction d with
  | nil =>
    rw [List.nil_append, dget_cons_neg _ _ _ (beq_eq_false_iff_ne.mpr (fun h => hne h.symm))]
  | cons kv rest ih =>
    by_cases h2 : (kv.1 == k') = true
    · rw [List.cons_append, dget_cons_pos _ _ _ h2, dget_cons_pos _ _ _ h2]
    · rw [List.cons_append, dget_cons_neg _ _ _ (by simpa using h2),
        dget_cons_neg _ _ _ (by simpa using h2)]
      exact ih

theorem dget_dset_self {α : Type} (d : List (String × α)) (k : String) (v : α) :
    dget (dset d k v) k = some v := by
  by_cases hc : containsKey d k = true
  · rw [dset, if_pos hc]
    exact dget_map_set_self d k v hc
  · rw [dset, if_neg hc]
    exact dget_append_single d k v (by simpa using hc)

theorem dget_dset_ne {α : Type} (d : List (String × α)) (k k' : String) (v : α)
    (hne : k' ≠ k) : dget (dset d k v) k' = dget d k' := by
  by_cases hc : containsKey d k = true
  · rw [dset, if_pos hc]
    exact dget_map_set_ne d k k' v hne
  · rw [dset, if_neg hc]
    exact dget_append_single_ne d k k' v hne

theorem dget_dpop_self {α : Type} (d : List (String × α)) (k : String) :
    dget (dpop d k) k = none := by
  induction d with
  | nil => rfl
  | cons kv rest ih =>
    by_cases h1 : (kv.1 == k) = true
    · rw [dpop_cons_drop _ _ _ h1]
      exact ih
    · rw [dpop_cons_keep _ _ _ (by simpa using h1),
        dget_cons_neg _ _ _ (by simpa using h1)]
      exact ih

theorem dget_dpop_ne {α : Type} (d : List (String × α)) (k k' : String)
    (hne : k' ≠ k) : dget (dpop d k) k' = dget d k' := by
  induction d with
  | nil => rfl
  | cons kv rest ih =>
    by_cases h1 : (kv.1 == k) = true
    · have hkeq : kv.1 = k := by simpa using h1
      have h2 : (kv.1 == k') = false :=
        beq_eq_false_iff_ne.mpr (by rw [hkeq]; exact fun h => hne h.symm)
      rw [dpop_cons_drop _ _ _ h1, dget_cons_neg _ _ _ h2]
      exact ih
    · by_cases h2 : (kv.1 == k') = true
      · rw [dpop_cons_keep _ _ _ (by simpa using h1), dget_cons_pos _ _ _ h2,
          dget_cons_pos _ _ _ h2]
      · rw [dpop_cons_keep _ _ _ (by simpa using h1),
          dget_cons_neg _ _ _ (by simpa using h2),
          dget_cons_neg _ _ _ (by simpa using h2)]
        exact ih

/-- Cons step of `msgGet` when the head matches case-insensitively. -/
theorem msgGet_cons_pos (kv : String × String) (rest : List (String × String))
    (k : String) (h : (kv.1.toLower == k.toLower) = true) :
    msgGet (kv :: rest) k = some kv.2 := by
  simp [msgGet, List.find?, h]

/-- Cons step of `msgGet` when the head does not match case-insensitively. -/
theorem msgGet_cons_neg (kv : String × String) (rest : List (String × String))
    (k : String) (h : (kv.1.toLower == k.toLower) = false) :
    msgGet (kv :: rest) k = msgGet rest k := by
  simp [msgGet, List.find?, h]

/-- Folding a mapping whose values depend only on the key (as
`dict.update(Message)` does: each key `k` is assigned `m[k]`): dict lookup
hits `f k` exactly when the key occurs, and otherwise falls through to the
initial dict.  No uniqueness hypothesis is needed, since duplicate
occurrences of a key assign the same value. -/
theorem dget_dupdate_keyfn (f : String → Option String)
    (l : List (String × String)) :
    ∀ (d : List (String × Option String)) (k : String),
      dget (dupdate d (l.map (fun kv => (kv.1, f kv.1)))) k =
        if k ∈ l.map Prod.fst then some (f k) else dget d k := by
  induction l with
  | nil => intro d k; simp [dupdate]
  | cons kv rest ih =>
    intro d k
    have hstep : dupdate d ((kv.1, f kv.1) :: rest.map (fun kv => (kv.1, f kv.1))) =
        dupdate (dset d kv.1 (f kv.1)) (rest.map (fun kv => (kv.1, f kv.1))) := rfl
    rw [List.map_cons, hstep, ih (dset d kv.1 (f kv.1)) k, List.map_cons]
    by_cases hr : k ∈ rest.map Prod.fst
    · rw [if_pos hr, if_pos (List.mem_cons_of_mem kv.1 hr)]
    · rw [if_neg hr]
      by_cases hk : kv.1 = k
      · have hmem : k ∈ kv.1 :: rest.map Prod.fst := by
          rw [hk]
          exact List.mem_cons_self k (rest.map Prod.fst)
        rw [if_pos hmem, hk, dget_dset_self]
      · have hnmem : k ∉ kv.1 :: rest.map Prod.fst := by
          intro hm
          cases hm with
          | head => exact hk rfl
          | tail _ hm' => exact hr hm'
        rw [if_neg hnmem, dget_dset_ne d kv.1 k (f kv.1) (fun hh => hk hh.symm)]

/-- When the inbound header names are case-insensitively unique, the
case-insensitive `Message` lookup agrees with the exact-name match. -/
theorem msgGet_of_exact (h : List (String × String))
    (hnd : (h.map (fun kv => kv.1.toLower)).Nodup) (k : String)
    (kv0 : String × String)
    (hfind : h.find? (fun kv => kv.1 == k) = some kv0) :
    msgGet h k = some kv0.2 := by
  induction h with
  | nil => simp [List.find?] at hfind
  | cons kv rest ih =>
    rw [List.map_cons, List.nodup_cons] at hnd
    by_cases hk : (kv.1 == k) = true
    · rw [List.find?_cons_of_pos _ (by exact hk)] at hfind
      have hkv : kv = kv0 := by simpa using hfind
      have hkeq : kv.1 = k := by simpa using hk
      rw [msgGet_cons_pos kv rest k (by rw [hkeq]; simp), hkv]
    · rw [List.find?_cons_of_neg _ (by exact hk)] at hfind
      have hmem : kv0 ∈ rest := List.mem_of_find?_eq_some hfind
      have hk0 : kv0.1 = k := by simpa using List.find?_some hfind
      have hhead : (kv.1.toLower == k.toLower) = false := by
        rw [beq_eq_false_iff_ne]
        intro hle
        apply hnd.1
        have hin : kv0.1.toLower ∈ rest.map (fun kv => kv.1.toLower) :=
          List.mem_map_of_mem (fun kv => kv.1.toLower) hmem
        rwa [hk0, ← hle] at hin
      rw [msgGet_cons_neg kv rest k hhead]
      exact ih hnd.2 hfind

/-! ## C7: outbound proxy headers -/

/-- C7: for a request whose inbound header names are case-insensitively
unique (at most one spelling of each header), the outbound header mapping
equals the inbound headers minus `Host`, plus `X-Forwarded-For`,
`X-Forwarded-Host` (the inbound `Host` value) and
`X-Forwarded-Proto: http`, characterized pointwise by dict lookup. -/
theorem c7_forwarded_headers (h : List (String × String))
    (hnd : (h.map (fun kv => kv.1.toLower)).Nodup) (k : String) :
    dget (reqHeaders h) k =
      if k = "X-Forwarded-For" then some (some "self.address_string()")
      else if k = "X-Forwarded-Host" then some (msgGet h "Host")
      else if k = "X-Forwarded-Proto" then some (some "http")
      else if k = "Host" then none
      else (h.find? (fun kv => kv.1 == k)).map (fun kv => some kv.2) := by
  have hstep : reqHeaders h =
      dset (dset (dset (dpop (dictOfMsg h) "Host")
        "X-Forwarded-For" (some "self.address_string()"))
        "X-Forwarded-Host" (msgGet h "Host"))
        "X-Forwarded-Proto" (some "http") := rfl
  rw [hstep]
  by_cases h1 : k = "X-Forwarded-For"
  · subst h1
    rw [dget_dset_ne _ _ _ _ (by decide), dget_dset_ne _ _ _ _ (by decide),
      dget_dset_self]
    simp
  · by_cases h2 : k = "X-Forwarded-Host"
    · subst h2
      rw [dget_dset_ne _ _ _ _ (by decide), dget_dset_self]
      simp [h1]
    · by_cases h3 : k = "X-Forwarded-Proto"
      · subst h3
        rw [dget_dset_self]
        simp [h1, h2]
      · rw [dget_dset_ne _ _ _ _ h3, dget_dset_ne _ _ _ _ h2,
          dget_dset_ne _ _ _ _ h1]
        by_cases h4 : k = "Host"
        · subst h4
          rw [dget_dpop_self]
          simp [h1, h2, h3]
        · rw [dget_dpop_ne _ _ _ h4, dictOfMsg,
            dget_dupdate_keyfn (msgGet h) h [] k]
          simp only [h1, h2, h3, h4, if_false]
          by_cases hmem : k ∈ h.map Prod.fst
          · rw [if_pos hmem]
            have hex : ∃ kv0, h.find? (fun kv => kv.1 == k) = some kv0 := by
              cases hf : h.find? (fun kv => kv.1 == k) with
              | some kv0 => exact ⟨kv0, rfl⟩
              | none =>
                rw [List.find?_eq_none] at hf
                obtain ⟨kv, hkv, hkeq⟩ := List.mem_map.mp hmem
                exact absurd (by simp [hkeq]) (hf kv hkv)
            obtain ⟨kv0, hf⟩ := hex
            rw [hf, msgGet_of_exact h hnd k kv0 hf]
            rfl
          · rw [if_neg hmem]
            have hf : h.find? (fun kv => kv.1 == k) = none := by
              rw [List.find?_eq_none]
              intro kv hkv hbe
              exact hmem (List.mem_map.mpr ⟨kv, hkv, by simpa using hbe⟩)
            rw [hf]
            rfl

/-- Witness for C7 on a concrete one-header request (trivially
case-insensitively unique). -/
theorem c7_witness :
    dget (reqHeaders [("Accept", "text/html")]) "Accept" =
      some (some "text/html") := by
  have h := c7_forwarded_headers [("Accept", "text/html")] (by simp) "Accept"
  simpa using h

/-! ## C10: the X-Forwarded-For value is a constant literal -/

/-- C10: the injected `X-Forwarded-For` value is the fixed literal text
`self.address_string()` (the source quotes the method call), so it is
identical for any two requests, whatever their inbound headers. -/
theorem c10_xff_literal (h h' : List (String × String)) :
    dget (reqHeaders h) "X-Forwarded-For" = some (some "self.address_string()") ∧
    dget (reqHeaders h) "X-Forwarded-For" = dget (reqHeaders h') "X-Forwarded-For" := by
  have key : ∀ g : List (String × String),
      dget (reqHeaders g) "X-Forwarded-For" = some (some "self.address_string()") := by
    intro g
    have hstep : reqHeaders g =
        dset (dset (dset (dpop (dictOfMsg g) "Host")
          "X-Forwarded-For" (some "self.address_string()"))
          "X-Forwarded-Host" (msgGet g "Host"))
          "X-Forwarded-Proto" (some "http") := rfl
    rw [hstep, dget_dset_ne _ _ _ _ (by decide), dget_dset_ne _ _ _ _ (by decide),
      dget_dset_self]
  exact ⟨key h, (key h).trans (key h').symm⟩

/-! ## C4: lemmas about the path-translation pipeline -/

theorem splitOnSlash_cons_slash (c : Char) (rest : Str) (h : (c == '/') = true) :
    splitOnSlash (c :: rest) = [] :: splitOnSlash rest := by
  simp [splitOnSlash, h]

theorem splitOnSlash_cons_ne (c : Char) (rest : Str) (h : (c == '/') = false) :
    splitOnSlash (c :: rest) =
      match splitOnSlash rest with
      | v :: vs => (c :: v) :: vs
      | [] => [[c]] := by
  simp [splitOnSlash, h]

theorem splitOnSlash_ne_nil (p : Str) : splitOnSlash p ≠ [] := by
  cases p with
  | nil => simp [splitOnSlash]
  | cons c rest =>
    by_cases h : (c == '/') = true
    · simp [splitOnSlash_cons_slash c rest h]
    · rw [splitOnSlash_cons_ne c rest (by simpa using h)]
      cases hs : splitOnSlash rest <;> simp

theorem mem_splitOnSlash_no_slash (p : Str) :
    ∀ w ∈ splitOnSlash p, '/' ∉ w := by
  induction p with
  | nil =>
    intro w hw
    simp [splitOnSlash] at hw
    simp [hw]
  | cons c rest ih =>
    intro w hw
    by_cases h : (c == '/') = true
    · rw [splitOnSlash_cons_slash c rest h] at hw
      cases hw with
      | head => simp
      | tail _ h' => exact ih w h'
    · have hc : c ≠ '/' := by simpa using h
      rw [splitOnSlash_cons_ne c rest (by simpa using h)] at hw
      cases hs : splitOnSlash rest with
      | nil => exact absurd hs (splitOnSlash_ne_nil rest)
      | cons v vs =>
        rw [hs] at hw
        cases hw with
        | head =>
          intro hmem
          cases hmem with
          | head => exact hc rfl
          | tail _ hmem' => exact ih v (hs ▸ List.mem_cons_self v vs) hmem'
        | tail _ h' => exact ih w (hs ▸ List.mem_cons_of_mem v h')

theorem splitOnSlash_no_slash (w : Str) (hw : '/' ∉ w) : splitOnSlash w = [w] := by
  induction w with
  | nil => rfl
  | cons c cs ih =>
    simp only [List.mem_cons, not_or] at hw
    have hc : (c == '/') = false :=
      beq_eq_false_iff_ne.mpr (fun hh => hw.1 hh.symm)
    have ihr : splitOnSlash cs = [cs] := ih hw.2
    rw [splitOnSlash_cons_ne c cs hc, ihr]

theorem splitOnSlash_append_slash (w : Str) (hw : '/' ∉ w) :
    ∀ a : Str, splitOnSlash (a ++ '/' :: w) = splitOnSlash a ++ [w] := by
  intro a
  induction a with
  | nil =>
    rw [List.nil_append, splitOnSlash_cons_slash '/' w (by simp),
      splitOnSlash_no_slash w hw]
    rfl
  | cons c cs ih =>
    rw [List.cons_append]
    by_cases h : (c == '/') = true
    · rw [splitOnSlash_cons_slash c _ h, splitOnSlash_cons_slash c cs h, ih,
        List.cons_append]
    · rw [splitOnSlash_cons_ne c _ (by simpa using h),
        splitOnSlash_cons_ne c cs (by simpa using h), ih]
      cases hs : splitOnSlash cs with
      | nil => exact absurd hs (splitOnSlash_ne_nil cs)
      | cons v vs => simp

theorem joinSegs_nil : joinSegs root [] = root := rfl

theorem joinSegs_cons (root w : Str) (ws : List Str) :
    joinSegs root (w :: ws) = joinSegs (root ++ '/' :: w) ws := rfl

theorem joinSegs_root_append (a b : Str) (ws : List Str) :
    joinSegs (a ++ b) ws = a ++ joinSegs b ws := by
  induction ws generalizing b with
  | nil => rfl
  | cons w ws ih =>
    rw [joinSegs_cons, joinSegs_cons, List.append_assoc]
    exact ih (b ++ '/' :: w)

theorem joinSegs_eq (root : Str) (ws : List Str) :
    joinSegs root ws = root ++ joinSegs [] ws := by
  have := joinSegs_root_append root [] ws
  simpa using this

theorem joinSlash_cons_of_ne (w : Str) (v : Str) (vs : List Str) :
    joinSlash (w :: v :: vs) = w ++ '/' :: joinSlash (v :: vs) := rfl

theorem joinSegs_nil_eq (ws : List Str) (h : ws ≠ []) :
    joinSegs [] ws = '/' :: joinSlash ws := by
  induction ws with
  | nil => exact absurd rfl h
  | cons w vs ih =>
    cases vs with
    | nil => rfl
    | cons v vs' =>
      rw [joinSegs_cons, List.nil_append, joinSegs_eq, ih (by simp),
        joinSlash_cons_of_ne]
      rfl

theorem splitOnSlash_joinSegs (ws : List Str) :
    ∀ root, (∀ w ∈ ws, '/' ∉ w) →
      splitOnSlash (joinSegs root ws) = splitOnSlash root ++ ws := by
  induction ws with
  | nil => intro root _; simp [joinSegs_nil]
  | cons w vs ih =>
    intro root hno
    rw [joinSegs_cons, ih _ (fun v hv => hno v (List.mem_cons_of_mem w hv)),
      splitOnSlash_append_slash w (hno w (List.mem_cons_self w vs))]
    simp

theorem idxOfSlash_eq_none (l : Str) (h : '/' ∉ l) : idxOfSlash l = none := by
  induction l with
  | nil => rfl
  | cons c rest ih =>
    simp only [List.mem_cons, not_or] at h
    have hc : ¬ ((c == '/') = true) := by
      simp only [beq_iff_eq]
      exact fun hh => h.1 hh.symm
    rw [idxOfSlash, if_neg hc, ih h.2]
    rfl

theorem rfindSlash_eq_none (w : Str) (h : '/' ∉ w) : rfindSlash w = none := by
  have : idxOfSlash w.reverse = none :=
    idxOfSlash_eq_none w.reverse (by simpa using h)
  simp [rfindSlash, this]

theorem dirname_no_slash (w : Str) (h : '/' ∉ w) : dirname w = [] := by
  simp [dirname, rfindSlash_eq_none w h]

theorem getLast?_no_slash (w : Str) (hw : w ≠ []) (hns : '/' ∉ w) :
    ∃ c, w.getLast? = some c ∧ c ≠ '/' := by
  induction w with
  | nil => exact absurd rfl hw
  | cons x rest ih =>
    cases rest with
    | nil =>
      refine ⟨x, rfl, ?_⟩
      intro hx
      exact hns (hx ▸ List.mem_cons_self x [])
    | cons y ys =>
      have hsub : '/' ∉ y :: ys := fun hm => hns (List.mem_cons_of_mem x hm)
      obtain ⟨c, hc1, hc2⟩ := ih (by simp) hsub
      exact ⟨c, by rw [List.getLast?_cons_cons]; exact hc1, hc2⟩

theorem endsWithSlash_false_of_no_slash (w : Str) (hw : w ≠ []) (hns : '/' ∉ w) :
    endsWithSlash w = false := by
  obtain ⟨c, hc1, hc2⟩ := getLast?_no_slash w hw hns
  simp [endsWithSlash, hc1, hc2]

theorem endsWithSlash_append_cons (root w : Str) (hw : w ≠ []) (hns : '/' ∉ w) :
    endsWithSlash (root ++ '/' :: w) = false := by
  obtain ⟨c, hc1, hc2⟩ := getLast?_no_slash w hw hns
  have h1 : ('/' :: w).getLast? = some c := by
    cases w with
    | nil => exact absurd rfl hw
    | cons y ys => rw [List.getLast?_cons_cons]; exact hc1
  have h2 : (root ++ '/' :: w).getLast? = some c := by
    rw [List.getLast?_append, h1]
    rfl
  simp [endsWithSlash, h2, hc2]

theorem startswith_slash_false_of_head (c : Char) (x : Str) (hc : c ≠ '/') :
    startswith (c :: x) ['/'] = false := by
  simp [startswith, hc]

theorem pjoin_plain (root w : Str) (hr : root ≠ []) (hre : endsWithSlash root = false)
    (hw : w ≠ []) (hns : '/' ∉ w) : pjoin root w = root ++ '/' :: w := by
  obtain ⟨c, cs, rfl⟩ := List.exists_cons_of_ne_nil hw
  have hc : c ≠ '/' := fun hh => hns (hh ▸ List.mem_cons_self c cs)
  simp [pjoin, startswith_slash_false_of_head c cs hc, hre, hr]

theorem pjoin_nil_left (w : Str) : pjoin [] w = w := by
  by_cases h : startswith w ['/'] = true
  · simp [pjoin, h]
  · simp [pjoin, h]

theorem endsWithSlash_joinSegs (ws : List Str) :
    ∀ root : Str, (∀ w ∈ ws, w ≠ [] ∧ '/' ∉ w) → endsWithSlash root = false →
      endsWithSlash (joinSegs root ws) = false := by
  induction ws with
  | nil => intro root _ h; exact h
  | cons w vs ih =>
    intro root hall hroot
    have hw := hall w (List.mem_cons_self w vs)
    rw [joinSegs_cons]
    exact ih (root ++ '/' :: w) (fun v hv => hall v (List.mem_cons_of_mem w hv))
      (endsWithSlash_append_cons root w hw.1 hw.2)

theorem buildPath_spec (words : List Str) :
    ∀ root : Str, (∀ w ∈ words, w ≠ [] ∧ '/' ∉ w) → root ≠ [] →
      endsWithSlash root = false →
      ∃ ws, (∀ w ∈ ws, plainSeg w) ∧ buildPath root words = joinSegs root ws := by
  induction words with
  | nil => intro root _ _ _; exact ⟨[], by simp, rfl⟩
  | cons w rest ih =>
    intro root hall hr hre
    have hw := hall w (List.mem_cons_self w rest)
    have hrest := fun v hv => hall v (List.mem_cons_of_mem w hv)
    by_cases hskip : dirname w ≠ [] ∨ w = ['.'] ∨ w = ['.', '.']
    · have hstep : buildPath root (w :: rest) = buildPath root rest := by
        simp only [buildPath, List.foldl_cons, if_pos hskip]
      rw [hstep]
      exact ih root hrest hr hre
    · have hstep : buildPath root (w :: rest) = buildPath (pjoin root w) rest := by
        simp only [buildPath, List.foldl_cons, if_neg hskip]
      have hnd := hskip
      push_neg at hnd
      rw [hstep, pjoin_plain root w hr hre hw.1 hw.2]
      obtain ⟨ws, hws, heq⟩ := ih (root ++ '/' :: w) hrest (by simp)
        (endsWithSlash_append_cons root w hw.1 hw.2)
      refine ⟨w :: ws, ?_, ?_⟩
      · intro v hv
        cases hv with
        | head => exact ⟨hw.1, hnd.2.1, hnd.2.2, hw.2⟩
        | tail _ h' => exact hws v h'
      · rw [joinSegs_cons]
        exact heq

theorem normAddComp_empty (i : Nat) (acc : List Str) :
    normAddComp i acc [] = acc := by
  unfold normAddComp
  rw [if_pos (Or.inl rfl)]

theorem normAddComp_plain (i : Nat) (acc : List Str) (w : Str) (h : plainSeg w) :
    normAddComp i acc w = acc ++ [w] := by
  obtain ⟨h1, h2, h3, _⟩ := h
  unfold normAddComp
  rw [if_neg (by simp [h1, h2]), if_pos (Or.inl h3)]

theorem foldl_normAddComp (l : List Str) :
    ∀ (acc : List Str) (i : Nat), (∀ w ∈ l, plainSeg w) →
      l.foldl (normAddComp i) acc = acc ++ l := by
  induction l with
  | nil => intro acc i _; simp
  | cons w rest ih =>
    intro acc i hall
    rw [List.foldl_cons, normAddComp_plain i acc w (hall w (List.mem_cons_self w rest)),
      ih (acc ++ [w]) i (fun v hv => hall v (List.mem_cons_of_mem w hv)),
      List.append_assoc]
    rfl

theorem joinSegs_nil_head (ds : List Str) (hds : ds ≠ [])
    (hplain : ∀ w ∈ ds, plainSeg w) :
    ∃ c cs, joinSegs [] ds = '/' :: c :: cs ∧ c ≠ '/' := by
  cases ds with
  | nil => exact absurd rfl hds
  | cons w rest =>
    have hw := hplain w (List.mem_cons_self w rest)
    obtain ⟨c, cs0, rfl⟩ := List.exists_cons_of_ne_nil hw.1
    have hjoin : ∃ u, joinSlash ((c :: cs0) :: rest) = (c :: cs0) ++ u := by
      cases rest with
      | nil => exact ⟨[], by simp [joinSlash]⟩
      | cons v vs => exact ⟨'/' :: joinSlash (v :: vs), rfl⟩
    obtain ⟨u, hu⟩ := hjoin
    rw [joinSegs_nil_eq _ (by simp), hu]
    exact ⟨c, cs0 ++ u, rfl, fun hh => hw.2.2.2 (hh ▸ List.mem_cons_self c cs0)⟩

theorem normpath_canon (q : Str) (ds : List Str) (hq : q ≠ [])
    (h1 : startswith q ['/'] = true) (h2 : startswith q ['/', '/'] = false)
    (hplain : ∀ w ∈ ds, plainSeg w)
    (hsplit : splitOnSlash q = [] :: ds ∨ splitOnSlash q = ([] :: ds) ++ [[]]) :
    normpath q = '/' :: joinSlash ds := by
  have hI : (if startswith q ['/'] then
      (if startswith q ['/', '/'] ∧ ¬ startswith q ['/', '/', '/'] then 2 else 1)
      else 0) = 1 := by
    rw [if_pos h1, if_neg]
    simp [h2]
  have hfold : (splitOnSlash q).foldl (normAddComp 1) [] = ds := by
    cases hsplit with
    | inl h =>
      rw [h, List.foldl_cons, normAddComp_empty]
      exact foldl_normAddComp ds [] 1 hplain
    | inr h =>
      have inner : List.foldl (normAddComp 1) [] ([] :: ds) = ds := by
        rw [List.foldl_cons, normAddComp_empty]
        exact foldl_normAddComp ds [] 1 hplain
      rw [h, List.foldl_append, inner, List.foldl_cons, normAddComp_empty,
        List.foldl_nil]
  simp only [normpath, if_neg hq, hI, hfold]
  simp

theorem normpath_joinSegs (ds : List Str) (hds : ds ≠ [])
    (hplain : ∀ w ∈ ds, plainSeg w) :
    normpath (joinSegs [] ds) = joinSegs [] ds := by
  obtain ⟨c, cs, hrep, hc⟩ := joinSegs_nil_head ds hds hplain
  have hsplit : splitOnSlash (joinSegs [] ds) = [] :: ds := by
    rw [splitOnSlash_joinSegs ds [] (fun w hw => (hplain w hw).2.2.2)]
    rfl
  rw [normpath_canon (joinSegs [] ds) ds (by rw [hrep]; simp)
    (by rw [hrep]; simp [startswith])
    (by rw [hrep]; simp [startswith, hc]) hplain (Or.inl hsplit)]
  rw [joinSegs_nil_eq ds hds]

theorem normpath_joinSegs_slash (ds : List Str) (hds : ds ≠ [])
    (hplain : ∀ w ∈ ds, plainSeg w) :
    normpath (joinSegs [] ds ++ ['/']) = joinSegs [] ds := by
  obtain ⟨c, cs, hrep, hc⟩ := joinSegs_nil_head ds hds hplain
  have hsplit : splitOnSlash (joinSegs [] ds ++ ['/']) = ([] :: ds) ++ [[]] := by
    rw [splitOnSlash_append_slash [] (by simp) (joinSegs [] ds),
      splitOnSlash_joinSegs ds [] (fun w hw => (hplain w hw).2.2.2)]
    rfl
  rw [normpath_canon (joinSegs [] ds ++ ['/']) ds (by simp)
    (by rw [hrep]; simp [startswith])
    (by rw [hrep]; simp [startswith, hc]) hplain (Or.inr hsplit)]
  rw [joinSegs_nil_eq ds hds]

theorem commonLen_append (ds t : List Str) : commonLen ds (ds ++ t) = ds.length := by
  induction ds with
  | nil => cases t <;> rfl
  | cons a as ih =>
    rw [List.cons_append, commonLen, if_pos rfl, ih]
    rfl

theorem filter_ne_all (l : List Str) (h : ∀ w ∈ l, w ≠ []) :
    l.filter (fun w => w ≠ []) = l := by
  induction l with
  | nil => rfl
  | cons w rest ih =>
    rw [List.filter_cons_of_pos (by simp [h w (List.mem_cons_self w rest)]),
      ih (fun v hv => h v (List.mem_cons_of_mem w hv))]

theorem filter_ne_cons_nil (l : List Str) :
    (([] : Str) :: l).filter (fun w => w ≠ []) = l.filter (fun w => w ≠ []) := by
  rw [List.filter_cons_of_neg (by simp)]

theorem joinSegs_append_list (r : Str) (a b : List Str) :
    joinSegs (joinSegs r a) b = joinSegs r (a ++ b) := by
  simp [joinSegs, List.foldl_append]

theorem foldl_pjoin_eq (w1 : Str) (ws' : List Str)
    (hall : ∀ w ∈ w1 :: ws', plainSeg w) :
    (w1 :: ws').foldl pjoin [] = joinSegs w1 ws' := by
  have hw1 := hall w1 (List.mem_cons_self w1 ws')
  rw [List.foldl_cons, pjoin_nil_left]
  have main : ∀ (l : List Str) (acc : Str), acc ≠ [] → endsWithSlash acc = false →
      (∀ w ∈ l, plainSeg w) → l.foldl pjoin acc = joinSegs acc l := by
    intro l
    induction l with
    | nil => intro acc _ _ _; rfl
    | cons v vs ih =>
      intro acc hne hend hall'
      have hv := hall' v (List.mem_cons_self v vs)
      rw [List.foldl_cons, pjoin_plain acc v hne hend hv.1 hv.2.2.2, joinSegs_cons]
      exact ih (acc ++ '/' :: v) (by simp)
        (endsWithSlash_append_cons acc v hv.1 hv.2.2.2)
        (fun u hu => hall' u (List.mem_cons_of_mem v hu))
  exact main ws' w1 hw1.1
    (endsWithSlash_false_of_no_slash w1 hw1.1 hw1.2.2.2)
    (fun u hu => hall u (List.mem_cons_of_mem w1 hu))

theorem relpath_eval (ds ws : List Str) (hds : ds ≠ [])
    (hplds : ∀ w ∈ ds, plainSeg w) (hplws : ∀ w ∈ ws, plainSeg w)
    (path : Str)
    (hpath : path = joinSegs (joinSegs [] ds) ws ∨
      path = joinSegs (joinSegs [] ds) ws ++ ['/']) :
    relpath (joinSegs [] ds) path (joinSegs [] ds) =
      if ws = [] then ['.'] else ws.foldl pjoin [] := by
  have hplboth : ∀ w ∈ ds ++ ws, plainSeg w := by
    intro w hw
    cases List.mem_append.mp hw with
    | inl h => exact hplds w h
    | inr h => exact hplws w h
  have hdsws : ds ++ ws ≠ [] := by
    cases ds with
    | nil => exact absurd rfl hds
    | cons a as => simp
  obtain ⟨c, cs, hrep, hc⟩ := joinSegs_nil_head ds hds hplds
  have hstartD : startswith (joinSegs [] ds) ['/'] = true := by
    rw [hrep]; simp [startswith]
  have habsD : abspath (joinSegs [] ds) (joinSegs [] ds) = joinSegs [] ds := by
    rw [abspath, if_pos hstartD, normpath_joinSegs ds hds hplds]
  have hbasejoin : joinSegs (joinSegs [] ds) ws = joinSegs [] (ds ++ ws) :=
    joinSegs_append_list [] ds ws
  have hstartP : startswith path ['/'] = true := by
    cases hpath with
    | inl h => rw [h, joinSegs_eq, hrep]; simp [startswith]
    | inr h => rw [h, joinSegs_eq, hrep]; simp [startswith]
  have habsP : abspath (joinSegs [] ds) path = joinSegs [] (ds ++ ws) := by
    rw [abspath, if_pos hstartP]
    cases hpath with
    | inl h => rw [h, hbasejoin, normpath_joinSegs (ds ++ ws) hdsws hplboth]
    | inr h => rw [h, hbasejoin, normpath_joinSegs_slash (ds ++ ws) hdsws hplboth]
  have hsplitD : (splitOnSlash (abspath (joinSegs [] ds) (joinSegs [] ds))).filter
      (fun w => w ≠ []) = ds := by
    rw [habsD, splitOnSlash_joinSegs ds [] (fun w hw => (hplds w hw).2.2.2)]
    show (([] : Str) :: ds).filter (fun w => w ≠ []) = ds
    rw [filter_ne_cons_nil, filter_ne_all ds (fun w hw => (hplds w hw).1)]
  have hsplitP : (splitOnSlash (abspath (joinSegs [] ds) path)).filter
      (fun w => w ≠ []) = ds ++ ws := by
    rw [habsP, splitOnSlash_joinSegs (ds ++ ws) [] (fun w hw => (hplboth w hw).2.2.2)]
    show (([] : Str) :: (ds ++ ws)).filter (fun w => w ≠ []) = ds ++ ws
    rw [filter_ne_cons_nil, filter_ne_all (ds ++ ws) (fun w hw => (hplboth w hw).1)]
  simp only [relpath, hsplitD, hsplitP, commonLen_append, Nat.sub_self,
    List.replicate_zero, List.nil_append, List.drop_left]

theorem safeSeg_of_plain (w : Str) (h : plainSeg w) : safeSeg w :=
  ⟨h.1, h.2.2.1, h.2.2.2⟩

theorem pjoin_no_lead_slash (root w : Str) (hr : root ≠ [])
    (hre : endsWithSlash root = false) (hw : startswith w ['/'] = false) :
    pjoin root w = root ++ '/' :: w := by
  simp [pjoin, hw, hre, hr]

theorem joinSegs_snoc_root (root w1 : Str) (ws' : List Str) :
    root ++ '/' :: joinSegs w1 ws' = joinSegs (root ++ '/' :: w1) ws' := by
  rw [joinSegs_eq w1 ws', joinSegs_eq (root ++ '/' :: w1) ws', List.append_assoc]
  rfl

/-- The final branch of `translate_path`: whether it returns the joined path
directly or re-roots it under the static-assets directory, the result stays
within one of the two roots. -/
theorem final_stage_within (isdir pexists : Str → Bool) (ds ws : List Str)
    (hds : ds ≠ []) (hplds : ∀ w ∈ ds, plainSeg w) (hplws : ∀ w ∈ ws, plainSeg w)
    (path : Str)
    (hpath : path = joinSegs (joinSegs [] ds) ws ∨
      path = joinSegs (joinSegs [] ds) ws ++ ['/']) :
    withinRoot (joinSegs [] ds)
      (if isdir path || endswith path ".html".data || pexists path then path
       else pjoin (pjoin (joinSegs [] ds) STATIC_ASSETS_SEG)
         (relpath (joinSegs [] ds) path (joinSegs [] ds))) ∨
    withinRoot (pjoin (joinSegs [] ds) STATIC_ASSETS_SEG)
      (if isdir path || endswith path ".html".data || pexists path then path
       else pjoin (pjoin (joinSegs [] ds) STATIC_ASSETS_SEG)
         (relpath (joinSegs [] ds) path (joinSegs [] ds))) := by
  obtain ⟨c, cs, hrep, hc⟩ := joinSegs_nil_head ds hds hplds
  have hDne : joinSegs [] ds ≠ [] := by rw [hrep]; simp
  have hDend : endsWithSlash (joinSegs [] ds) = false :=
    endsWithSlash_joinSegs ds [] (fun w hw => ⟨(hplds w hw).1, (hplds w hw).2.2.2⟩) rfl
  have hSAD : pjoin (joinSegs [] ds) STATIC_ASSETS_SEG =
      joinSegs [] ds ++ '/' :: STATIC_ASSETS_SEG :=
    pjoin_plain (joinSegs [] ds) STATIC_ASSETS_SEG hDne hDend (by decide) (by decide)
  have hSne : pjoin (joinSegs [] ds) STATIC_ASSETS_SEG ≠ [] := by
    rw [hSAD, hrep]; simp
  have hSend : endsWithSlash (pjoin (joinSegs [] ds) STATIC_ASSETS_SEG) = false := by
    rw [hSAD]
    exact endsWithSlash_append_cons (joinSegs [] ds) STATIC_ASSETS_SEG
      (by decide) (by decide)
  by_cases hcond : (isdir path || endswith path ".html".data || pexists path) = true
  · left
    rw [if_pos hcond]
    exact ⟨ws, fun w hw => safeSeg_of_plain w (hplws w hw), hpath⟩
  · right
    rw [if_neg hcond, relpath_eval ds ws hds hplds hplws path hpath]
    cases hws0 : ws with
    | nil =>
      rw [if_pos rfl,
        pjoin_plain (pjoin (joinSegs [] ds) STATIC_ASSETS_SEG) ['.'] hSne hSend
          (by decide) (by decide)]
      exact ⟨[['.']], by intro w hw; simp at hw; rw [hw]; exact ⟨by decide, by decide, by decide⟩,
        Or.inl rfl⟩
    | cons w1 ws' =>
      have hall : ∀ w ∈ w1 :: ws', plainSeg w := hws0 ▸ hplws
      have hw1 := hall w1 (List.mem_cons_self w1 ws')
      rw [if_neg (by simp), foldl_pjoin_eq w1 ws' hall]
      have hrelrep : ∃ t, joinSegs w1 ws' = w1 ++ t := by
        rw [joinSegs_eq]
        exact ⟨joinSegs [] ws', rfl⟩
      obtain ⟨t, ht⟩ := hrelrep
      obtain ⟨c1, cs1, rfl⟩ := List.exists_cons_of_ne_nil hw1.1
      have hc1 : c1 ≠ '/' := fun hh => hw1.2.2.2 (hh ▸ List.mem_cons_self c1 cs1)
      have hstart : startswith (joinSegs (c1 :: cs1) ws') ['/'] = false := by
        rw [ht, List.cons_append]
        exact startswith_slash_false_of_head c1 (cs1 ++ t) hc1
      have hjoin2 : pjoin (pjoin (joinSegs [] ds) STATIC_ASSETS_SEG)
          (joinSegs (c1 :: cs1) ws') =
          joinSegs (pjoin (joinSegs [] ds) STATIC_ASSETS_SEG) ((c1 :: cs1) :: ws') := by
        rw [pjoin_no_lead_slash _ _ hSne hSend hstart, joinSegs_snoc_root,
          joinSegs_cons]
      rw [hjoin2]
      refine ⟨(c1 :: cs1) :: ws', ?_, Or.inl rfl⟩
      intro w hw
      exact safeSeg_of_plain w (hall w hw)

/-- C4: for every request path, including traversal attempts, the result of
`translate_path` stays within the document root or the static-assets root:
it is the root extended only by separator-free segments that are not `..`. -/
theorem c4_path_traversal_confined (isdir pexists : Str → Bool) (ds : List Str)
    (p0 : Str) (hds : ds ≠ []) (hplain : ∀ w ∈ ds, plainSeg w) :
    withinRoot (joinSegs [] ds) (translate_path isdir pexists (joinSegs [] ds) p0) ∨
    withinRoot (pjoin (joinSegs [] ds) STATIC_ASSETS_SEG)
      (translate_path isdir pexists (joinSegs [] ds) p0) := by
  obtain ⟨c, cs, hrep, hc⟩ := joinSegs_nil_head ds hds hplain
  have hDne : joinSegs [] ds ≠ [] := by rw [hrep]; simp
  have hDend : endsWithSlash (joinSegs [] ds) = false :=
    endsWithSlash_joinSegs ds [] (fun w hw => ⟨(hplain w hw).1, (hplain w hw).2.2.2⟩) rfl
  simp only [translate_path]
  generalize normpath (unquote (splitHead '#' (splitHead '?' (replaceColon p0)))) = q
  generalize endsWithSlash (rstrip (splitHead '#' (splitHead '?' (replaceColon p0)))) = tr
  have hwords : ∀ w ∈ (splitOnSlash q).filter (fun w => w ≠ []),
      w ≠ [] ∧ '/' ∉ w := by
    intro w hw
    have hmf := List.mem_filter.mp hw
    exact ⟨of_decide_eq_true hmf.2, mem_splitOnSlash_no_slash q w hmf.1⟩
  obtain ⟨ws, hws, hbase⟩ :=
    buildPath_spec ((splitOnSlash q).filter (fun w => w ≠ [])) (joinSegs [] ds)
      hwords hDne hDend
  rw [hbase]
  exact final_stage_within isdir pexists ds ws hds hplain hws
    (if tr then joinSegs (joinSegs [] ds) ws ++ ['/'] else joinSegs (joinSegs [] ds) ws)
    (by cases tr <;> simp)

/-- Witness for C4: the document root `/srv/www` and the traversal attempt
`/../../etc/passwd`, with the filesystem oracles answering false. -/
theorem c4_witness :
    (["srv".data, "www".data] ≠ ([] : List Str)) ∧
    (withinRoot (joinSegs [] ["srv".data, "www".data])
      (translate_path (fun _ => false) (fun _ => false)
        (joinSegs [] ["srv".data, "www".data]) "/../../etc/passwd".data) ∨
    withinRoot (pjoin (joinSegs [] ["srv".data, "www".data]) STATIC_ASSETS_SEG)
      (translate_path (fun _ => false) (fun _ => false)
        (joinSegs [] ["srv".data, "www".data]) "/../../etc/passwd".data)) :=
  ⟨by decide,
   c4_path_traversal_confined (fun _ => false) (fun _ => false)
     ["srv".data, "www".data] "/../../etc/passwd".data (by decide)
     (by intro w hw
         simp only [List.mem_cons, List.not_mem_nil, or_false] at hw
         cases hw with
         | inl h => rw [h]; exact ⟨by decide, by decide, by decide, by decide⟩
         | inr h => rw [h]; exact ⟨by decide, by decide, by decide, by decide⟩)⟩

end Server
